import Mathlib

/-!
# Verification of the rag-qdrant-neo4j ingestion pipeline and fusion engine

Shallow embedding of the core of `rag-api/app`:

* `query_service.py` — the hybrid fusion / rerank engine (`hybrid_search`);
* `redis_state.py`   — the job store (`create_job`, `update_job`);
* `validators.py`    — `validate_embedding_dimensions`;
* `pipeline_routes.py` — stage routes and background units;
* `entity_processor.py` — `extract_relationships_batch_parallel`;
* `markdown_chunker.py` — the paragraph chunker (`MarkdownChunker.chunk`).

Python floats on scores/percentages are modelled as rationals (`ℚ`), machine
ints as `Int`/`Nat`, strings as Lean `String` (or `List Char` where character
level indexing matters, in the chunker).
-/

namespace RagPipeline

/-! ## Fusion / rerank engine (`query_service.py`, `hybrid_search`)

A search-result dict, restricted to the keys `hybrid_search` reads.
`search_chunks`/`search_entities`/`search_relationships` tag their results
with `source` = `"vector_chunks"` / `"vector_entities"` /
`"vector_relationships"`; `graph_search` tags with `"graph"`.  Graph results
carry no `"score"` key, hence `score : Option ℚ` (`result.get("score", 0.5)`
defaults to 0.5).  `text` is the payload text (`result.payload.get("text","")`
on vector results; absent, i.e. `""`, on graph results). -/
structure SearchResult where
  source : String
  score : Option ℚ
  text : String
  rtype : String
  deriving DecidableEq, Repr

/-- A combined result after the RRF scoring loop: the original dict plus the
computed `final_score`.  `pos` records the item's 0-based index in the
`vector_results + graph_results` concatenation (the loop variable `idx`),
and `rrf` the `rrf_score` computed there. -/
structure FusedResult where
  pos : Nat
  res : SearchResult
  rrf : ℚ
  final : ℚ
  deriving DecidableEq, Repr

/-- `rrf_score = 1.0 / (k + idx + 1)` with `k = 60`. -/
def rrfAt (idx : Nat) : ℚ := 1 / (60 + idx + 1)

/-- The source boost of the scoring loop:
`result.get("score", 0.5) * 0.5` when `result.get("source") == "vector"`,
else `0.3`. -/
def sourceBoost (r : SearchResult) : ℚ :=
  if r.source = "vector" then r.score.getD (1/2) * (1/2) else 3/10

/-- The `for idx, result in enumerate(combined)` scoring loop:
`result["final_score"] = rrf_score + source_boost`. -/
def scoreResults (combined : List SearchResult) : List FusedResult :=
  combined.enum.map fun p => ⟨p.1, p.2, rrfAt p.1, rrfAt p.1 + sourceBoost p.2⟩

/-- The sort key of `sorted(combined, key=lambda x: x.get("final_score", 0),
reverse=True)`: `a` may precede `b` iff `b.final ≤ a.final` (descending). -/
def fusedGE (a b : FusedResult) : Prop := b.final ≤ a.final

instance : DecidableRel fusedGE := fun a b => inferInstanceAs (Decidable (b.final ≤ a.final))

instance : IsTotal FusedResult fusedGE :=
  ⟨fun a b => by unfold fusedGE; exact le_total b.final a.final⟩

instance : IsTrans FusedResult fusedGE := ⟨fun _ _ _ h h' => le_trans h' h⟩

/-- `hybrid_search` after the two searches returned `vector_results` and
`graph_results`: concatenate, score (RRF + source boost), sort descending by
`final_score` with Python's stable `sorted` (modelled by the stable
`List.insertionSort`, which produces the same list: sorted descending with
ties in original order), truncate to `rerank_top_k`.  No deduplication is
performed anywhere in the function. -/
def hybrid_search (vector_results graph_results : List SearchResult)
    (rerank_top_k : Nat) : List FusedResult :=
  ((scoreResults (vector_results ++ graph_results)).insertionSort fusedGE).take rerank_top_k

lemma scoreResults_getElem? (combined : List SearchResult) (i : Nat) (r : SearchResult)
    (h : combined[i]? = some r) :
    (scoreResults combined)[i]? = some ⟨i, r, rrfAt i, rrfAt i + sourceBoost r⟩ := by
  simp [scoreResults, List.getElem?_map, List.getElem?_enum, h]

lemma mem_scoreResults {combined : List SearchResult} {f : FusedResult}
    (h : f ∈ scoreResults combined) :
    f.res ∈ combined ∧ f.final = f.rrf + sourceBoost f.res := by
  simp only [scoreResults, List.mem_map] at h
  obtain ⟨⟨i, r⟩, hir, rfl⟩ := h
  exact ⟨List.getElem?_mem (List.mem_enum_iff_getElem?.mp hir), rfl⟩

lemma scoreResults_length (combined : List SearchResult) :
    (scoreResults combined).length = combined.length := by
  simp [scoreResults]

lemma scoreResults_pos (combined : List SearchResult) (i : Nat)
    (h : i < (scoreResults combined).length) :
    ((scoreResults combined)[i]).pos = i := by
  have hi : i < combined.length := by rwa [scoreResults_length] at h
  have h1 : (scoreResults combined)[i]? =
      some ⟨i, combined[i], rrfAt i, rrfAt i + sourceBoost combined[i]⟩ :=
    scoreResults_getElem? combined i combined[i] (List.getElem?_eq_getElem hi)
  have h2 : (scoreResults combined)[i]? = some (scoreResults combined)[i] :=
    List.getElem?_eq_getElem h
  rw [h1] at h2
  rw [← Option.some_inj.mp h2]

/-- Each element of the scored concatenation carries its own 0-based
concatenation index, so the list is strictly increasing in `pos`. -/
lemma scoreResults_pairwise_pos (combined : List SearchResult) :
    (scoreResults combined).Pairwise fun a b => a.pos < b.pos := by
  rw [List.pairwise_iff_getElem]
  intro i j hi hj hij
  rwa [scoreResults_pos combined i hi, scoreResults_pos combined j hj]

/-- Inserting `x` into `L` preserves a pairwise invariant `S`, provided `x`
relates by `S` to everything in `L` and everything the insertion leaves in
front of `x` (i.e. any `y` with `¬ r x y`) relates back to `x`. -/
lemma orderedInsert_pairwise {α : Type} {r : α → α → Prop} [DecidableRel r]
    {S : α → α → Prop} (x : α) :
    ∀ L : List α, L.Pairwise S → (∀ y ∈ L, S x y) → (∀ y ∈ L, ¬ r x y → S y x) →
      (L.orderedInsert r x).Pairwise S := by
  intro L
  induction L with
  | nil => simp
  | cons y L ih =>
    intro hP hx hx'
    rw [List.orderedInsert]
    obtain ⟨hy, hL⟩ := List.pairwise_cons.mp hP
    split
    · exact List.pairwise_cons.mpr ⟨hx, hP⟩
    · refine List.pairwise_cons.mpr ⟨fun z hz => ?_, ?_⟩
      · rcases (List.mem_orderedInsert r).mp hz with rfl | hzL
        · exact hx' y (List.mem_cons_self _ _) (by assumption)
        · exact hy z hzL
      · exact ih hL (fun z hz => hx z (List.mem_cons_of_mem _ hz))
          (fun z hz h => hx' z (List.mem_cons_of_mem _ hz) h)

/-- Stability of the final sort: on an input whose `pos` fields are strictly
increasing (the concatenation order), the descending insertion sort keeps
items with equal `final_score` in `pos` order. -/
lemma insertionSort_stable_pos :
    ∀ l : List FusedResult, l.Pairwise (fun a b => a.pos < b.pos) →
      (l.insertionSort fusedGE).Pairwise fun a b => a.final = b.final → a.pos < b.pos := by
  intro l
  induction l with
  | nil => simp
  | cons x l ih =>
    intro hP
    obtain ⟨hx, hl⟩ := List.pairwise_cons.mp hP
    rw [List.insertionSort]
    refine orderedInsert_pairwise x _ (ih hl) (fun y hy => ?_) (fun y hy hr => ?_)
    · exact fun _ => hx y ((List.mem_insertionSort fusedGE).mp hy)
    · intro he
      exact absurd (le_of_eq he) hr

/-- Concrete fusion inputs used as counterexamples: two vector-sourced chunk
results with identical text `"dup"` (as produced by `search_chunks`, source
tag `"vector_chunks"`). -/
def dupVec : List SearchResult :=
  [⟨"vector_chunks", some (9/10), "dup", "chunk"⟩,
   ⟨"vector_chunks", some (1/2), "dup", "chunk"⟩]

/-- C1 (counterexample): with two input results of identical text `"dup"`
(scores 0.9 and 0.5) and `rerank_top_k = 5`, `hybrid_search` returns BOTH of
them: the output's texts are `["dup", "dup"]`, so the fused output does
contain two results with identical text content — no deduplication happens. -/
theorem hybrid_search_dedup_counterexample :
    (hybrid_search dupVec [] 5).map (fun f => f.res.text) = ["dup", "dup"] ∧
    ¬ (hybrid_search dupVec [] 5).Pairwise (fun a b => a.res.text ≠ b.res.text) := by
  have e : hybrid_search dupVec [] 5 =
      [⟨0, ⟨"vector_chunks", some (9/10), "dup", "chunk"⟩, rrfAt 0, rrfAt 0 + 3/10⟩,
       ⟨1, ⟨"vector_chunks", some (1/2), "dup", "chunk"⟩, rrfAt 1, rrfAt 1 + 3/10⟩] := by
    show ((scoreResults (dupVec ++ [])).insertionSort fusedGE).take 5 = _
    have e1 : scoreResults (dupVec ++ []) =
        [⟨0, ⟨"vector_chunks", some (9/10), "dup", "chunk"⟩, rrfAt 0, rrfAt 0 + 3/10⟩,
         ⟨1, ⟨"vector_chunks", some (1/2), "dup", "chunk"⟩, rrfAt 1, rrfAt 1 + 3/10⟩] := rfl
    rw [e1]
    simp only [List.insertionSort, List.orderedInsert]
    rw [if_pos (show fusedGE _ _ by unfold fusedGE; norm_num [rrfAt])]
    rfl
  rw [e]
  refine ⟨rfl, fun hp => ?_⟩
  exact (List.pairwise_cons.mp hp).1 _ (List.mem_cons_self _ _) rfl

/-- C1 (amended): `hybrid_search` performs no deduplication at all: whenever
`rerank_top_k` is at least the total number of results, the fused output is a
permutation of the scored concatenation — every input item, duplicated text
or not, appears in the output exactly as often as in
`vector_results + graph_results`. -/
theorem hybrid_search_no_dedup (vec graph : List SearchResult) (k : Nat)
    (hk : (vec ++ graph).length ≤ k) :
    (hybrid_search vec graph k).Perm (scoreResults (vec ++ graph)) := by
  unfold hybrid_search
  rw [List.take_of_length_le]
  · exact List.perm_insertionSort fusedGE _
  · rw [List.length_insertionSort, scoreResults_length]
    exact hk

/-- Witness for `hybrid_search_no_dedup` at the duplicate-text input. -/
theorem hybrid_search_no_dedup_witness :
    (dupVec ++ []).length ≤ 5 ∧ (hybrid_search dupVec [] 5).Perm (scoreResults (dupVec ++ [])) :=
  ⟨by decide, hybrid_search_no_dedup dupVec [] 5 (by decide)⟩

/-- Modelled from the spec, for comparison only (§4.3 step 4): the boost the
spec prescribes for a vector-sourced item,
`normalized_similarity * 0.5` with `normalized_similarity = raw_score /
max(raw_score over all vector results, 1.0)`. -/
def specVectorBoost (rawScore maxRaw : ℚ) : ℚ := rawScore / max maxRaw 1 * (1/2)

/-- A single vector chunk result with raw score 1, on which the spec's
vector boost (0.5) and the code's boost (0.3) differ. -/
def oneVec : List SearchResult := [⟨"vector_chunks", some 1, "a", "chunk"⟩]

/-- C2 (counterexample): for a single vector-sourced result with raw score 1,
the claim demands `final_score = rrf + 1/max(1,1) * 0.5 = 1/61 + 1/2`, but the
code computes `1/61 + 3/10`: the boost branch tests `source == "vector"`,
which is never the tag (`"vector_chunks"`) a vector result carries, so the
item falls into the flat `0.3` branch. -/
theorem hybrid_search_boost_counterexample :
    (hybrid_search oneVec [] 1).map (fun f => f.final) = [1/61 + 3/10] ∧
    1/61 + 3/10 ≠ rrfAt 0 + specVectorBoost 1 1 := by
  constructor
  · have e : hybrid_search oneVec [] 1 =
        [⟨0, ⟨"vector_chunks", some 1, "a", "chunk"⟩, rrfAt 0, rrfAt 0 + 3/10⟩] := by
      show ((scoreResults (oneVec ++ [])).insertionSort fusedGE).take 1 = _
      rfl
    rw [e]
    norm_num [rrfAt]
  · norm_num [rrfAt, specVectorBoost]

/-- C2 (amended): every fused item — vector-sourced (tags `"vector_chunks"`,
`"vector_entities"`, `"vector_relationships"`) and graph-sourced (tag
`"graph"`) alike — receives the flat `source_boost = 0.3`, because no result's
`source` field equals the literal `"vector"` tested by the branch; hence
`final_score = rrf + 0.3` for every output item. -/
theorem hybrid_search_flat_boost (vec graph : List SearchResult) (k : Nat)
    (hvec : ∀ r ∈ vec, r.source = "vector_chunks" ∨ r.source = "vector_entities" ∨
      r.source = "vector_relationships")
    (hgraph : ∀ r ∈ graph, r.source = "graph") :
    ∀ f ∈ hybrid_search vec graph k, f.final = f.rrf + 3/10 := by
  intro f hf
  have h1 : f ∈ (scoreResults (vec ++ graph)).insertionSort fusedGE :=
    List.mem_of_mem_take hf
  have h2 : f ∈ scoreResults (vec ++ graph) := (List.mem_insertionSort fusedGE).mp h1
  obtain ⟨hres, hfinal⟩ := mem_scoreResults h2
  have hsrc : f.res.source ≠ "vector" := by
    rcases List.mem_append.mp hres with h | h
    · rcases hvec _ h with h' | h' | h' <;> simp [h']
    · simp [hgraph _ h]
  rw [hfinal, sourceBoost, if_neg hsrc]

/-- Witness for `hybrid_search_flat_boost` on concrete inputs. -/
theorem hybrid_search_flat_boost_witness :
    (∀ r ∈ dupVec, r.source = "vector_chunks" ∨ r.source = "vector_entities" ∨
      r.source = "vector_relationships") ∧
    (∀ r ∈ ([⟨"graph", none, "", "entity"⟩] : List SearchResult), r.source = "graph") ∧
    ∀ f ∈ hybrid_search dupVec [⟨"graph", none, "", "entity"⟩] 5, f.final = f.rrf + 3/10 :=
  ⟨by decide, by decide,
    hybrid_search_flat_boost dupVec [⟨"graph", none, "", "entity"⟩] 5 (by decide) (by decide)⟩

/-- C5 (confirmed): the scored concatenation assigns the item at 0-based
position `p` the score `rrf = 1 / (60 + p + 1)`; the fused output is sorted
descending by `final_score`; items with equal `final_score` appear in
concatenation (`pos`) order — the stable-sort tie-break; and the output is
truncated to `rerank_top_k`. -/
theorem hybrid_search_rrf_sorted_stable_truncated
    (vec graph : List SearchResult) (k : Nat) :
    (∀ (i : Nat) (r : SearchResult), (vec ++ graph)[i]? = some r →
        (scoreResults (vec ++ graph))[i]? =
          some ⟨i, r, 1 / (60 + (i : ℚ) + 1), 1 / (60 + (i : ℚ) + 1) + sourceBoost r⟩) ∧
    (hybrid_search vec graph k).Sorted fusedGE ∧
    (hybrid_search vec graph k).Pairwise (fun a b => a.final = b.final → a.pos < b.pos) ∧
    (hybrid_search vec graph k).length = min k (vec ++ graph).length := by
  refine ⟨fun i r h => scoreResults_getElem? _ i r h, ?_, ?_, ?_⟩
  · exact List.Pairwise.sublist (List.take_sublist _ _)
      (List.sorted_insertionSort fusedGE _)
  · exact List.Pairwise.sublist (List.take_sublist _ _)
      (insertionSort_stable_pos _ (scoreResults_pairwise_pos _))
  · rw [hybrid_search, List.length_take, List.length_insertionSort, scoreResults_length]

/-! ## Job store (`redis_state.py`)

A job's Redis metadata record, restricted to the fields the modelled claims
mention.  `stats` counters, the `bucket`/`file` locator and the
`created_at`/`updated_at` timestamps are carried through `update_job`
untouched by any modelled property and are omitted.  `error` is `none` when
the JSON record has no `error` key. -/
structure Progress where
  current : Int
  total : Int
  percentage : ℚ
  deriving DecidableEq, Repr

structure JobMeta where
  status : String
  error : Option String
  progress : Progress
  deriving DecidableEq, Repr

/-- `create_job`: a fresh record with
`progress = {"current": 0, "total": 0, "percentage": 0.0}` and no `error` key.
The default status is `"created"`; the `/pipeline/process` route overrides it
to `"processing"` through `**kwargs`, hence the parameter. -/
def create_job (status : String) : JobMeta := ⟨status, none, ⟨0, 0, 0⟩⟩

/-- The keyword arguments of one `update_job` call.  Every caller that passes
`progress` passes a dict with both `current` and `total` keys, so the
`metadata["progress"].update(progress)` dict-merge amounts to replacing both
fields; `none` models an absent (or Python-falsy) argument. -/
structure UpdateArgs where
  status : Option String
  progress : Option (Int × Int)
  error : Option String
  deriving DecidableEq, Repr

def updStatus (s : String) : UpdateArgs := ⟨some s, none, none⟩

def updError (e : String) : UpdateArgs := ⟨none, none, some e⟩

def updProgress (cur tot : Int) : UpdateArgs := ⟨none, some (cur, tot), none⟩

def updStatusError (s e : String) : UpdateArgs := ⟨some s, none, some e⟩

/-- `update_job` (redis_state.py lines 89–144), acting on an existing record:
`if status:` overwrite status; `if progress:` merge and recompute
`percentage = current / total * 100` when `total > 0`; `if error:` set the
error field AND force `status = "error"`.  Python string truthiness is the
`≠ ""` guards.  Nothing ever removes the `error` key. -/
def update_job (m : JobMeta) (u : UpdateArgs) : JobMeta :=
  let m1 := match u.status with
    | some s => if s ≠ "" then { m with status := s } else m
    | none => m
  let m2 := match u.progress with
    | some (cur, tot) =>
        { m1 with progress :=
            ⟨cur, tot, if 0 < tot then (cur : ℚ) / (tot : ℚ) * 100 else m1.progress.percentage⟩ }
    | none => m1
  match u.error with
  | some e => if e ≠ "" then { m2 with error := some e, status := "error" } else m2
  | none => m2

lemma update_job_error_aux (m : JobMeta) (u : UpdateArgs) (e : String)
    (he : u.error = some e) (hne : e ≠ "") :
    (update_job m u).status = "error" ∧ (update_job m u).error = some e := by
  simp only [update_job, he]
  simp [hne]

lemma update_job_status_only (m : JobMeta) (s : String) (hs : s ≠ "") :
    update_job m (updStatus s) = { m with status := s } := by
  simp [update_job, updStatus, hs]

/-- The errored job produced by the failure handler of
`_extract_relationships_background`
(`update_job(job_id, status="error", error=str(e))`). -/
def erroredJob : JobMeta := update_job (create_job "processing") (updStatusError "error" "boom")

/-- The same job after the caller re-invokes `/pipeline/extract-relationships`,
whose route runs `update_job(request.job_id, status="extracting_relationships")`
(pipeline_routes.py line 1012) — with no `error` argument. -/
def retriedJob : JobMeta := update_job erroredJob (updStatus "extracting_relationships")

/-- C4 (counterexample): after a failed stage the job has `status = "error"`
and `error = "boom"`; re-invoking the extract-relationships stage moves
`status` to `"extracting_relationships"` but leaves `error = "boom"` set —
the record violates `status == "error" ↔ error is set`, and the retry did
not clear the error field. -/
theorem error_invariant_counterexample :
    erroredJob.status = "error" ∧ erroredJob.error = some "boom" ∧
    retriedJob.status = "extracting_relationships" ∧ retriedJob.error = some "boom" ∧
    ¬ (retriedJob.status = "error" ↔ retriedJob.error ≠ none) := by
  refine ⟨rfl, rfl, rfl, rfl, fun h => ?_⟩
  have : retriedJob.status = "error" := h.mpr (by simp [retriedJob, erroredJob,
    update_job, updStatus, updStatusError, create_job])
  simp [retriedJob, erroredJob, update_job, updStatus, updStatusError, create_job] at this

/-- C4 (amended): each `update_job` call that passes a nonempty `error`
message leaves the record with `status = "error"` and the error field set —
in this direction the invariant is enforced per call.  The converse fails
after a retry: re-invoking a stage overwrites `status` but never clears the
stale `error` field (see `error_invariant_counterexample`). -/
theorem update_job_error_invariant (m : JobMeta) (u : UpdateArgs) (e : String)
    (he : u.error = some e) (hne : e ≠ "") :
    (update_job m u).status = "error" ∧ (update_job m u).error = some e :=
  update_job_error_aux m u e he hne

/-- Witness for `update_job_error_invariant`. -/
theorem update_job_error_invariant_witness :
    (updError "boom").error = some "boom" ∧ "boom" ≠ "" ∧
    (update_job (create_job "processing") (updError "boom")).status = "error" ∧
    (update_job (create_job "processing") (updError "boom")).error = some "boom" := by
  refine ⟨rfl, by decide, ?_⟩
  exact update_job_error_invariant (create_job "processing") (updError "boom") "boom" rfl
    (by decide)

/-- C8 (counterexample): updating progress to `current = 1, total = 2` stores
`percentage = 50` (the code multiplies by 100), not `current / total = 1/2`. -/
theorem progress_percentage_counterexample :
    (update_job (create_job "created") (updProgress 1 2)).progress.percentage = 50 ∧
    ((update_job (create_job "created") (updProgress 1 2)).progress.current : ℚ) /
      ((update_job (create_job "created") (updProgress 1 2)).progress.total : ℚ) = 1 / 2 ∧
    (50 : ℚ) ≠ 1 / 2 := by
  refine ⟨?_, ?_, by norm_num⟩ <;>
    norm_num [update_job, create_job, updProgress]

/-- C8 (amended): after any `update_job` call that updates progress with
`total > 0`, the stored record has exactly the passed `current` and `total`
and `percentage = current / total * 100` (a 0–100 scale, not the 0–1 ratio
the claim states). -/
theorem update_job_percentage (m : JobMeta) (u : UpdateArgs) (cur tot : Int)
    (hp : u.progress = some (cur, tot)) (ht : 0 < tot) :
    (update_job m u).progress.current = cur ∧
    (update_job m u).progress.total = tot ∧
    (update_job m u).progress.percentage = (cur : ℚ) / (tot : ℚ) * 100 := by
  obtain ⟨us, up, ue⟩ := u
  simp only at hp
  subst hp
  simp only [update_job, ht, if_true]
  cases us <;> cases ue <;> simp [ht] <;> split_ifs <;> simp

/-- Witness for `update_job_percentage`. -/
theorem update_job_percentage_witness :
    (updProgress 1 2).progress = some (1, 2) ∧ (0 : Int) < 2 ∧
    ((update_job (create_job "created") (updProgress 1 2)).progress.current = 1 ∧
     (update_job (create_job "created") (updProgress 1 2)).progress.total = 2 ∧
     (update_job (create_job "created") (updProgress 1 2)).progress.percentage =
       (1 : ℚ) / (2 : ℚ) * 100) :=
  ⟨rfl, by decide,
    update_job_percentage (create_job "created") (updProgress 1 2) 1 2 rfl (by decide)⟩

/-! ## Stored pipeline artifacts (Redis records)

The chunk / entity / relationship dicts the stages read back from Redis,
restricted to the keys the modelled code uses. -/
structure StoredChunk where
  index : Nat
  text : String
  deriving DecidableEq, Repr

structure StoredEntity where
  text : String
  type : String
  description : String
  score : ℚ
  chunk_index : Option Nat
  deriving DecidableEq, Repr

/-- A relationship dict as produced by `_process_single_relationship_chunk`:
`source`/`target` are the (truthy) strings the filter checked,
`relation = r.get("relation", ...)` may be empty, `chunk_index` is stamped
from the chunk. -/
structure StoredRel where
  source : String
  target : String
  relation : String
  chunk_index : Nat
  deriving DecidableEq, Repr

/-! ## `validators.py`: `validate_embedding_dimensions`

Embedding vectors are lists of floats, modelled as `List ℚ`; raising
`ValueError` is modelled as `Except.error` carrying the message. -/

/-- The `ValueError` message raised for embedding `i` (first sentence; the
two trailing advice sentences are elided — only non-emptiness matters). -/
def dimErrorMsg (i actual expected : Nat) : String :=
  "Embedding " ++ toString i ++ " tem dimensão " ++ toString actual ++
    ", esperado " ++ toString expected

/-- The `for i, emb in enumerate(embeddings)` loop: raise on the first vector
whose length differs from `expected_dim`. -/
def validateFrom (expected_dim : Nat) : List (List ℚ) → Nat → Except String Bool
  | [], _ => .ok true
  | emb :: rest, i =>
      if emb.length ≠ expected_dim then .error (dimErrorMsg i emb.length expected_dim)
      else validateFrom expected_dim rest (i + 1)

/-- `validate_embedding_dimensions(embeddings, expected_dim)`:
`True` for an empty list, else scan for a wrong-length vector. -/
def validate_embedding_dimensions (embeddings : List (List ℚ)) (expected_dim : Nat) :
    Except String Bool :=
  if embeddings.isEmpty then .ok true
  else validateFrom expected_dim embeddings 0

lemma dimErrorMsg_ne_empty (i actual expected : Nat) : dimErrorMsg i actual expected ≠ "" := by
  intro h
  have := congrArg String.length h
  simp only [dimErrorMsg, String.length_append] at this
  have h1 : "Embedding ".length = 10 := rfl
  have h0 : "".length = 0 := rfl
  rw [h1, h0] at this
  omega

lemma validateFrom_error (d : Nat) :
    ∀ (l : List (List ℚ)) (i : Nat), (∃ e ∈ l, e.length ≠ d) →
      ∃ j a, validateFrom d l i = .error (dimErrorMsg j a d) := by
  intro l
  induction l with
  | nil => simp
  | cons emb rest ih =>
    intro i hbad
    by_cases hlen : emb.length ≠ d
    · exact ⟨i, emb.length, by simp [validateFrom, hlen]⟩
    · push_neg at hlen
      obtain ⟨e, he, hne⟩ := hbad
      rcases List.mem_cons.mp he with rfl | he
      · exact absurd hlen hne
      · obtain ⟨j, a, hj⟩ := ih (i + 1) ⟨e, he, hne⟩
        exact ⟨j, a, by simp [validateFrom, hlen, hj]⟩

lemma validate_embedding_dimensions_error (embeddings : List (List ℚ)) (d : Nat)
    (hbad : ∃ e ∈ embeddings, e.length ≠ d) :
    ∃ msg, validate_embedding_dimensions embeddings d = .error msg ∧ msg ≠ "" := by
  have hne : ¬ embeddings.isEmpty := by
    rcases embeddings with _ | ⟨e0, rest⟩
    · obtain ⟨e, he, -⟩ := hbad
      exact absurd he (List.not_mem_nil e)
    · simp
  obtain ⟨j, a, hj⟩ := validateFrom_error d embeddings 0 hbad
  exact ⟨dimErrorMsg j a d, by simp [validate_embedding_dimensions, hne, hj],
    dimErrorMsg_ne_empty j a d⟩

/-! ## `_generate_embeddings_background` (pipeline_routes.py lines 540–668)

The background unit for `/pipeline/vectorize-chunks`, as a function of the
job record, the stored chunks and what `embed_service.embed_documents`
returned for them.  The Qdrant point assembly and the batched upserts write
only to the external vector store and are not part of the job-state claims;
the point ids they use are modelled separately below (`chunk_point_ids`).
Returns the final job record and the list of job statuses written, in
order. -/
def generate_embeddings_background (m : JobMeta) (chunks : List StoredChunk)
    (chunkEmbeddings : List (List ℚ)) (dim : Nat) : JobMeta × List String :=
  if chunks.isEmpty then
    let m' := update_job m (updError "No chunks found")
    (m', [m'.status])
  else
    let m1 := update_job m (updStatus "embedding")
    match validate_embedding_dimensions chunkEmbeddings dim with
    | .error e =>
        let m2 := update_job m1 (updError e)
        (m2, [m1.status, m2.status])
    | .ok _ =>
        let m2 := update_job m1 (updStatus "chunks_vectorized")
        (m2, [m1.status, m2.status])

/-- C6 (confirmed): if the embedding adapter returned at least one vector of
the wrong dimensionality during chunk vectorization, the job ends in
`status = "error"` with the error message set, and `"chunks_vectorized"` is
never among the statuses the stage writes. -/
theorem embeddings_dim_mismatch_errors (m : JobMeta) (chunks : List StoredChunk)
    (chunkEmbeddings : List (List ℚ)) (dim : Nat)
    (hc : ¬ chunks.isEmpty) (hbad : ∃ e ∈ chunkEmbeddings, e.length ≠ dim) :
    (generate_embeddings_background m chunks chunkEmbeddings dim).1.status = "error" ∧
    (∃ msg, (generate_embeddings_background m chunks chunkEmbeddings dim).1.error = some msg) ∧
    "chunks_vectorized" ∉ (generate_embeddings_background m chunks chunkEmbeddings dim).2 := by
  obtain ⟨msg, hval, hmsg⟩ := validate_embedding_dimensions_error chunkEmbeddings dim hbad
  have hemb : (update_job m (updStatus "embedding")).status = "embedding" := by
    rw [update_job_status_only m "embedding" (by decide)]
  obtain ⟨hst, herr⟩ := update_job_error_aux (update_job m (updStatus "embedding"))
    (updError msg) msg rfl hmsg
  simp only [generate_embeddings_background, hc, if_false, hval]
  refine ⟨hst, ⟨msg, herr⟩, ?_⟩
  simp [hemb, hst]

/-- Witness for `embeddings_dim_mismatch_errors`: one chunk, one returned
vector of length 2 against a configured dimensionality of 3. -/
theorem embeddings_dim_mismatch_errors_witness :
    ¬ ([⟨0, "hello"⟩] : List StoredChunk).isEmpty ∧
    (∃ e ∈ [[(1 : ℚ), 2]], e.length ≠ 3) ∧
    ((generate_embeddings_background (create_job "entities_validated") [⟨0, "hello"⟩]
        [[(1 : ℚ), 2]] 3).1.status = "error" ∧
     (∃ msg, (generate_embeddings_background (create_job "entities_validated") [⟨0, "hello"⟩]
        [[(1 : ℚ), 2]] 3).1.error = some msg) ∧
     "chunks_vectorized" ∉ (generate_embeddings_background (create_job "entities_validated")
        [⟨0, "hello"⟩] [[(1 : ℚ), 2]] 3).2) :=
  ⟨by decide, ⟨[(1 : ℚ), 2], by simp⟩,
    embeddings_dim_mismatch_errors (create_job "entities_validated") [⟨0, "hello"⟩]
      [[(1 : ℚ), 2]] 3 (by decide) ⟨[(1 : ℚ), 2], by simp⟩⟩

/-! ## `extract_relationships_batch_parallel` (entity_processor.py lines 114–160)

`_safe_json_parse` of the Ollama reply and the prompt construction are the
external LLM adapter: the function below receives, per chunk, the already
parsed candidate list (a failing or unparseable chunk contributes `[]`, which
is exactly what `_process_single_relationship_chunk` returns on error). -/

/-- A candidate triple parsed from the model output; `source`/`target` may be
empty (Python-falsy), in which case the filter drops the candidate. -/
structure RelCandidate where
  source : String
  target : String
  relation : String
  deriving DecidableEq, Repr

/-- The `ents_by_chunk` index: the entities whose `chunk_index` is `cid`, in
input order (entities without a `chunk_index` are skipped). -/
def ents_by_chunk (entities : List StoredEntity) (cid : Nat) : List StoredEntity :=
  entities.filter fun e => e.chunk_index = some cid

/-- `_process_single_relationship_chunk` after the LLM reply parsed to
`parsed`: keep the candidates with truthy `source` and `target`, stamping
each with the chunk's index. -/
def process_single_relationship_chunk (c : StoredChunk) (parsed : List RelCandidate) :
    List StoredRel :=
  (parsed.filter fun r => r.source ≠ "" ∧ r.target ≠ "").map
    fun r => ⟨r.source, r.target, r.relation, c.index⟩

/-- `for i in range(0, total, batch_size): batch = chunks[i : i + batch_size]`. -/
def toBatches (n : Nat) : List α → List (List α)
  | [] => []
  | a :: l => (a :: l.take (n - 1)) :: toBatches n (l.drop (n - 1))
termination_by l => l.length
decreasing_by simp [List.length_drop]; omega

/-- One batch: tasks are created only for chunks with at least 2 entities;
`asyncio.gather` returns the per-chunk results in task order, which the
aggregation loop concatenates. -/
def processBatch (entities : List StoredEntity) (llm : StoredChunk → List RelCandidate)
    (batch : List StoredChunk) : List StoredRel :=
  (batch.filter fun c => 2 ≤ (ents_by_chunk entities c.index).length).flatMap
    fun c => process_single_relationship_chunk c (llm c)

/-- `extract_relationships_batch_parallel(chunks, entities)` with the parsed
LLM replies given by `llm`: process the chunks in batches of 5, collecting
all relationships in order. -/
def extract_relationships_batch_parallel (chunks : List StoredChunk)
    (entities : List StoredEntity) (llm : StoredChunk → List RelCandidate) :
    List StoredRel :=
  (toBatches 5 chunks).flatMap (processBatch entities llm)

/-! ## The `/pipeline/extract-relationships` route (pipeline_routes.py 965–1031)

The synchronous part of the endpoint: look up the job (404 if absent), check
the stored entities then the stored chunks (400 precondition failures), and
only then mark the job `extracting_relationships` and schedule the background
unit.  Returns the possibly-updated stored job and either the HTTP error
(status code, detail) or the acknowledged status string. -/
def extract_relationships_route (job : Option JobMeta) (entities : List StoredEntity)
    (chunks : List StoredChunk) : Option JobMeta × Except (Nat × String) String :=
  match job with
  | none => (none, .error (404, "Job not found"))
  | some m =>
      if entities.isEmpty then
        (some m, .error (400, "No entities found. Run /extract-entities first."))
      else if chunks.isEmpty then
        (some m, .error (400, "No chunks found. Run /process first."))
      else
        (some (update_job m (updStatus "extracting_relationships")),
          .ok "extracting_relationships")

/-- C3 (counterexample): for an existing job whose stored entity list is
empty (and chunks present), the extract-relationships request is NOT
accepted: the route answers HTTP 400 "No entities found. Run
/extract-entities first." and leaves the job record untouched. -/
theorem extract_relationships_empty_entities_counterexample :
    extract_relationships_route (some (create_job "chunks_ready")) [] [⟨0, "some text"⟩] =
      (some (create_job "chunks_ready"),
        .error (400, "No entities found. Run /extract-entities first.")) := rfl

/-- C3 (amended): a job with an empty stored entity list is rejected
synchronously with a 400 precondition failure and an unchanged job record —
the stage is never entered; separately, the batch extractor itself, run with
an empty entity list, does produce the empty relationship list ("no
relationships found"), since no chunk can have ≥ 2 entities. -/
theorem extract_relationships_empty_entities (m : JobMeta) (chunks : List StoredChunk)
    (llm : StoredChunk → List RelCandidate) :
    extract_relationships_route (some m) [] chunks =
      (some m, .error (400, "No entities found. Run /extract-entities first.")) ∧
    extract_relationships_batch_parallel chunks [] llm = [] := by
  refine ⟨rfl, ?_⟩
  have hb : ∀ b : List StoredChunk, processBatch [] llm b = [] := by
    intro b
    simp [processBatch, ents_by_chunk]
  simp [extract_relationships_batch_parallel, List.flatMap_eq_nil_iff, hb]

/-! ## Deterministic artifact identifiers (pipeline_routes.py 613–615, 808–810, 1129–1134)

Each vectorization stage computes its Qdrant point id as
`uuid.uuid5(uuid.NAMESPACE_DNS, name)` for a name string built purely from
the document id and the artifact's content-defining fields.  `uuid5` is a
fixed pure function (SHA-1 of namespace ++ name), so two ids are equal
whenever their name strings are equal; the model works at the level of the
name strings. -/

/-- `f"{document_id}:chunk:{chunk['index']}"`. -/
def chunk_point_id (document_id : String) (index : Nat) : String :=
  document_id ++ ":chunk:" ++ toString index

/-- `f"{document_id}:entity:{entity['text']}:{entity['type']}"`. -/
def entity_point_id (document_id name entity_type : String) : String :=
  document_id ++ ":entity:" ++ name ++ ":" ++ entity_type

/-- `f"{document_id}:rel:{source}:{relation}:{target}"`. -/
def rel_point_id (document_id source relation target : String) : String :=
  document_id ++ ":rel:" ++ source ++ ":" ++ relation ++ ":" ++ target

/-- The id sequence `_generate_embeddings_background` assigns to its points. -/
def chunk_point_ids (doc : String) (chunks : List StoredChunk) : List String :=
  chunks.map fun c => chunk_point_id doc c.index

/-- The id sequence `_vectorize_entities_background` assigns to its points. -/
def entity_point_ids (doc : String) (entities : List StoredEntity) : List String :=
  entities.map fun e => entity_point_id doc e.text e.type

/-- The id sequence `_vectorize_relationships_background` assigns. -/
def rel_point_ids (doc : String) (rels : List StoredRel) : List String :=
  rels.map fun r => rel_point_id doc r.source r.relation r.target

/-- C7 (confirmed): point identifiers are pure functions of the
content-defining fields — document id plus chunk index, document id plus
entity name and type, document id plus (source, relation, target).  Two runs
whose artifacts agree on those fields (texts, embeddings, descriptions,
scores, chunk back-references may all differ) produce identical id
sequences, so a re-run upserts over the previous points instead of
duplicating them. -/
theorem point_ids_deterministic (doc : String)
    (cs cs' : List StoredChunk) (es es' : List StoredEntity) (rs rs' : List StoredRel)
    (hc : cs.map (fun c => c.index) = cs'.map (fun c => c.index))
    (he : es.map (fun e => (e.text, e.type)) = es'.map (fun e => (e.text, e.type)))
    (hr : rs.map (fun r => (r.source, r.relation, r.target)) =
      rs'.map (fun r => (r.source, r.relation, r.target))) :
    chunk_point_ids doc cs = chunk_point_ids doc cs' ∧
    entity_point_ids doc es = entity_point_ids doc es' ∧
    rel_point_ids doc rs = rel_point_ids doc rs' := by
  refine ⟨?_, ?_, ?_⟩
  · have e1 : chunk_point_ids doc cs =
        (cs.map fun c => c.index).map (chunk_point_id doc) := by
      simp [chunk_point_ids, List.map_map, Function.comp]
    have e2 : chunk_point_ids doc cs' =
        (cs'.map fun c => c.index).map (chunk_point_id doc) := by
      simp [chunk_point_ids, List.map_map, Function.comp]
    rw [e1, e2, hc]
  · have e1 : entity_point_ids doc es =
        (es.map fun e => (e.text, e.type)).map fun p => entity_point_id doc p.1 p.2 := by
      simp [entity_point_ids, List.map_map, Function.comp]
    have e2 : entity_point_ids doc es' =
        (es'.map fun e => (e.text, e.type)).map fun p => entity_point_id doc p.1 p.2 := by
      simp [entity_point_ids, List.map_map, Function.comp]
    rw [e1, e2, he]
  · have e1 : rel_point_ids doc rs =
        (rs.map fun r => (r.source, r.relation, r.target)).map
          fun p => rel_point_id doc p.1 p.2.1 p.2.2 := by
      simp [rel_point_ids, List.map_map, Function.comp]
    have e2 : rel_point_ids doc rs' =
        (rs'.map fun r => (r.source, r.relation, r.target)).map
          fun p => rel_point_id doc p.1 p.2.1 p.2.2 := by
      simp [rel_point_ids, List.map_map, Function.comp]
    rw [e1, e2, hr]

/-- Witness for `point_ids_deterministic`: the two runs differ in chunk
texts, entity descriptions/scores/back-references and relationship
back-references, yet agree on every content-defining field. -/
theorem point_ids_deterministic_witness :
    ([⟨0, "first run text"⟩] : List StoredChunk).map (fun c => c.index) =
      ([⟨0, "edited text"⟩] : List StoredChunk).map (fun c => c.index) ∧
    ([⟨"Lambda", "AWS_SERVICE", "d1", 0, some 0⟩] : List StoredEntity).map
        (fun e => (e.text, e.type)) =
      ([⟨"Lambda", "AWS_SERVICE", "d2", 1, none⟩] : List StoredEntity).map
        (fun e => (e.text, e.type)) ∧
    ([⟨"Lambda", "Bedrock", "INVOKES", 0⟩] : List StoredRel).map
        (fun r => (r.source, r.relation, r.target)) =
      ([⟨"Lambda", "Bedrock", "INVOKES", 7⟩] : List StoredRel).map
        (fun r => (r.source, r.relation, r.target)) ∧
    (chunk_point_ids "doc.md" [⟨0, "first run text"⟩] =
        chunk_point_ids "doc.md" [⟨0, "edited text"⟩] ∧
      entity_point_ids "doc.md" [⟨"Lambda", "AWS_SERVICE", "d1", 0, some 0⟩] =
        entity_point_ids "doc.md" [⟨"Lambda", "AWS_SERVICE", "d2", 1, none⟩] ∧
      rel_point_ids "doc.md" [⟨"Lambda", "Bedrock", "INVOKES", 0⟩] =
        rel_point_ids "doc.md" [⟨"Lambda", "Bedrock", "INVOKES", 7⟩]) :=
  ⟨rfl, rfl, rfl,
    point_ids_deterministic "doc.md" [⟨0, "first run text"⟩] [⟨0, "edited text"⟩]
      [⟨"Lambda", "AWS_SERVICE", "d1", 0, some 0⟩] [⟨"Lambda", "AWS_SERVICE", "d2", 1, none⟩]
      [⟨"Lambda", "Bedrock", "INVOKES", 0⟩] [⟨"Lambda", "Bedrock", "INVOKES", 7⟩]
      rfl rfl rfl⟩

/-! ## Markdown chunker (`markdown_chunker.py`, `MarkdownChunker.chunk`)

Modelled over `List Char` so that character slicing, offsets and substring
search are explicit.  `extract_hierarchy` / `build_context_path` only fill
the chunk's `metadata` dict (header path), which no modelled claim reads, so
the `metadata` field is omitted from the chunk record; `index`, `text`,
`start_char`, `end_char` are modelled exactly. -/

/-- Python `str.strip()`: drop leading and trailing whitespace. -/
def strip (s : List Char) : List Char :=
  ((s.dropWhile Char.isWhitespace).reverse.dropWhile Char.isWhitespace).reverse

/-- The paragraph separator `"\n\n"`. -/
def nn : List Char := [Char.ofNat 10, Char.ofNat 10]

/-- `text.split("\n\n")`: scan left to right, cutting at each
(non-overlapping) occurrence of the two-newline separator. -/
def splitNNAux : List Char → List Char → List (List Char)
  | [], acc => [acc.reverse]
  | [c], acc => [(c :: acc).reverse]
  | c1 :: c2 :: rest, acc =>
      if c1 = Char.ofNat 10 ∧ c2 = Char.ofNat 10 then acc.reverse :: splitNNAux rest []
      else splitNNAux (c2 :: rest) (c1 :: acc)

def splitNN (s : List Char) : List (List Char) := splitNNAux s []

/-- The smallest index `i ≥ start` at which `sub` occurs in `text`. -/
def findFrom (text sub : List Char) (start : Nat) : Option Nat :=
  (List.range (text.length + 1)).find? fun i =>
    decide (start ≤ i) && sub.isPrefixOf (text.drop i)

/-- Python `text.find(sub, start)`: the occurrence index, or `-1` when `sub`
does not occur at or after `start` (the chunker only calls it with a
nonnegative `start`). -/
def pyFind (text sub : List Char) (start : Int) : Int :=
  match findFrom text sub start.toNat with
  | some i => (i : Int)
  | none => -1

/-- Python `l[-k:]` for `k > 0` (the trailing `k` characters; the whole list
when `k ≥ len(l)`). -/
def takeLast (k : Nat) (l : List Char) : List Char := l.drop (l.length - k)

/-- One produced chunk dict (header-path metadata omitted, see above). -/
structure RawChunk where
  index : Nat
  text : List Char
  start_char : Int
  end_char : Int
  deriving DecidableEq, Repr

/-- The loop state of `MarkdownChunker.chunk`: emitted chunks, the
accumulating buffer `current_chunk`, `current_start` and `current_pos`.
`chunk_index` always equals `chunks.length`. -/
structure ChunkState where
  chunks : List RawChunk
  current : List Char
  currentStart : Int
  currentPos : Int
  deriving DecidableEq, Repr

/-- One iteration of `for para in paragraphs` (markdown_chunker.py 115–159):
strip the paragraph; skip it when empty; append it to the buffer when the
combined length fits `chunk_size` (or the buffer is empty — an oversized
paragraph is taken whole); otherwise close the buffer as a chunk and seed
the next buffer with the trailing `chunk_overlap` characters. -/
def stepPara (chunk_size chunk_overlap : Nat) (text : List Char)
    (st : ChunkState) (para0 : List Char) : ChunkState :=
  let para := strip para0
  if para = [] then st
  else
    let testChunk := st.current ++ (if st.current = [] then [] else nn) ++ para
    if testChunk.length ≤ chunk_size ∨ st.current = [] then
      if st.current = [] then
        { st with current := para, currentStart := pyFind text para st.currentPos }
      else
        { st with current := st.current ++ nn ++ para }
    else
      let endPos := st.currentStart + (st.current.length : Int)
      let closed : RawChunk := ⟨st.chunks.length, st.current, st.currentStart, endPos⟩
      if 0 < chunk_overlap then
        let overlapText := takeLast chunk_overlap st.current
        let newStart := max 0 (endPos - (overlapText.length : Int))
        ⟨st.chunks ++ [closed], overlapText ++ nn ++ para, newStart, newStart⟩
      else
        let newStart := pyFind text para st.currentPos
        ⟨st.chunks ++ [closed], para, newStart, newStart⟩

/-- The trailing `if current_chunk:` block that emits the final buffer. -/
def closeFinal (st : ChunkState) : List RawChunk :=
  if st.current = [] then st.chunks
  else st.chunks ++
    [⟨st.chunks.length, st.current, st.currentStart,
      st.currentStart + (st.current.length : Int)⟩]

/-- `MarkdownChunker.chunk(text)`: return `[]` for empty or whitespace-only
input, else split into paragraphs and run the greedy accumulation loop. -/
def chunk (chunk_size chunk_overlap : Nat) (text : List Char) : List RawChunk :=
  if text = [] ∨ strip text = [] then []
  else closeFinal
    ((splitNN text).foldl (stepPara chunk_size chunk_overlap text) ⟨[], [], 0, 0⟩)

/-- C10 (confirmed): an empty or whitespace-only text yields the empty chunk
list, for every `chunk_size` and `chunk_overlap` (the guard at
markdown_chunker.py lines 99–100 returns before any other computation, so no
error can be raised either). -/
theorem chunk_blank_input (chunk_size chunk_overlap : Nat) (text : List Char)
    (h : strip text = []) : chunk chunk_size chunk_overlap text = [] := by
  simp [chunk, h]

/-- Witness for `chunk_blank_input` on a whitespace-only text. -/
theorem chunk_blank_input_witness :
    strip " \n \t ".toList = [] ∧ chunk 1000 200 " \n \t ".toList = [] :=
  ⟨by decide, chunk_blank_input 1000 200 _ (by decide)⟩

/-- The three-paragraph counterexample document for the chunk-size bound:
`"aaaaa\n\nbbbbb\n\nccccc"` (19 characters, three 5-character paragraphs). -/
def cexText : List Char := "aaaaa\n\nbbbbb\n\nccccc".toList

/-- C9 (counterexample): chunking the 19-character three-paragraph document
with `chunk_size = 5`, `chunk_overlap = 2` produces chunks of text lengths
`[5, 9, 9]`: the second chunk (`"aa\n\nbbbbb"`, the 2-character overlap seed
plus the joining `"\n\n"` plus the next paragraph) is 9 characters long,
exceeding `chunk_size + chunk_overlap = 7` — while the other two claimed
properties (≥ 2 chunks, strictly increasing `start_char`) hold here. -/
theorem chunker_bound_counterexample :
    5 < cexText.length ∧
    (chunk 5 2 cexText).map (fun c => c.text.length) = [5, 9, 9] ∧
    (chunk 5 2 cexText).map (fun c => c.start_char) = [0, 3, 10] ∧
    ¬ (∀ c ∈ chunk 5 2 cexText, c.text.length ≤ 5 + 2) := by
  decide

/-! ### Supporting lemmas for the three-paragraph chunking theorem -/

lemma length_dropWhile_le (p : Char → Bool) (l : List Char) :
    (l.dropWhile p).length ≤ l.length := by
  induction l with
  | nil => simp
  | cons c t ih =>
    by_cases h : p c
    · rw [List.dropWhile_cons_of_pos h]
      exact le_trans ih (Nat.le_succ _)
    · rw [List.dropWhile_cons_of_neg h]

lemma dropWhile_eq_self_of_length (p : Char → Bool) (l : List Char)
    (h : (l.dropWhile p).length = l.length) : l.dropWhile p = l := by
  cases l with
  | nil => simp
  | cons c t =>
    by_cases hc : p c
    · rw [List.dropWhile_cons_of_pos hc] at h
      have := length_dropWhile_le p t
      simp at h
      omega
    · rw [List.dropWhile_cons_of_neg hc]

lemma strip_eq_self_parts {l : List Char} (h : strip l = l) :
    l.dropWhile Char.isWhitespace = l ∧
    l.reverse.dropWhile Char.isWhitespace = l.reverse := by
  have hlen : (strip l).length = l.length := by rw [h]
  have h2 : (strip l).length ≤ (l.dropWhile Char.isWhitespace).length := by
    unfold strip
    rw [List.length_reverse]
    refine le_trans (length_dropWhile_le _ _) ?_
    rw [List.length_reverse]
  have h1 := length_dropWhile_le Char.isWhitespace l
  have e1 : l.dropWhile Char.isWhitespace = l :=
    dropWhile_eq_self_of_length _ _ (by omega)
  refine ⟨e1, ?_⟩
  have e2 : strip l = (l.reverse.dropWhile Char.isWhitespace).reverse := by
    unfold strip
    rw [e1]
  have e3 : (l.reverse.dropWhile Char.isWhitespace).reverse = l := by rw [← e2, h]
  have := congrArg List.reverse e3
  simpa using this

lemma head_not_ws_of_dropWhile {c : Char} {t : List Char}
    (h : (c :: t).dropWhile Char.isWhitespace = c :: t) : c.isWhitespace = false := by
  by_cases hc : c.isWhitespace
  · rw [List.dropWhile_cons_of_pos hc] at h
    have h1 := length_dropWhile_le Char.isWhitespace t
    have h2 := congrArg List.length h
    simp at h2
    omega
  · simpa using hc

lemma strip_head_not_ws {c : Char} {t : List Char} (h : strip (c :: t) = c :: t) :
    c.isWhitespace = false :=
  head_not_ws_of_dropWhile (strip_eq_self_parts h).1

lemma strip_getLast_not_ws {l : List Char} {c : Char} (h : strip l = l)
    (hc : l.getLast? = some c) : c.isWhitespace = false := by
  have h2 := (strip_eq_self_parts h).2
  have hh : l.reverse.head? = some c := by rw [List.head?_reverse]; exact hc
  cases hr : l.reverse with
  | nil => rw [hr] at hh; cases hh
  | cons d t =>
    rw [hr] at hh h2
    injection hh with hdc
    subst hdc
    exact head_not_ws_of_dropWhile h2

lemma strip_ne_nil_of_head {c : Char} (hc : c.isWhitespace = false) (t : List Char) :
    strip (c :: t) ≠ [] := by
  intro h
  unfold strip at h
  rw [List.dropWhile_cons_of_neg (by simp [hc])] at h
  have h2 : (c :: t).reverse.dropWhile Char.isWhitespace = [] := by
    simpa using congrArg List.reverse h
  have := List.dropWhile_eq_nil_iff.mp h2 c (by simp)
  rw [hc] at this
  cases this

/-- No occurrence of the `"\n\n"` separator inside `p`. -/
def NoNN (p : List Char) : Prop := ∀ i < p.length, nn.isPrefixOf (p.drop i) = false

instance (p : List Char) : Decidable (NoNN p) := by
  unfold NoNN
  infer_instance

lemma NoNN_cons {c : Char} {t : List Char} (h : NoNN (c :: t)) : NoNN t := by
  intro i hi
  have := h (i + 1) (by simpa using Nat.succ_lt_succ hi)
  simpa using this

lemma NoNN_head {c1 c2 : Char} {t : List Char} (h : NoNN (c1 :: c2 :: t)) :
    ¬ (c1 = Char.ofNat 10 ∧ c2 = Char.ofNat 10) := by
  rintro ⟨rfl, rfl⟩
  have := h 0 (by simp)
  rw [List.drop_zero] at this
  simp [nn, List.isPrefixOf] at this

lemma splitNNAux_no_sep : ∀ (p acc : List Char), NoNN p → splitNNAux p acc = [acc.reverse ++ p] := by
  intro p
  induction p with
  | nil => intro acc _; simp [splitNNAux]
  | cons c t ih =>
    intro acc hno
    cases t with
    | nil => simp [splitNNAux]
    | cons c2 t' =>
      show splitNNAux (c :: c2 :: t') acc = _
      simp only [splitNNAux]
      rw [if_neg (NoNN_head hno)]
      rw [ih (c :: acc) (NoNN_cons hno)]
      simp

lemma splitNNAux_append :
    ∀ (p rest acc : List Char), NoNN p → p.getLast? ≠ some (Char.ofNat 10) →
      splitNNAux (p ++ nn ++ rest) acc = (acc.reverse ++ p) :: splitNNAux rest [] := by
  intro p
  induction p with
  | nil =>
    intro rest acc _ _
    show splitNNAux (Char.ofNat 10 :: Char.ofNat 10 :: rest) acc = _
    simp only [splitNNAux]
    rw [if_pos (by simp)]
    simp
  | cons c t ih =>
    intro rest acc hno hlast
    cases t with
    | nil =>
      have hc : ¬ (c = Char.ofNat 10) := by
        intro hcc
        exact hlast (by simp [hcc])
      show splitNNAux (c :: Char.ofNat 10 :: (Char.ofNat 10 :: rest)) acc = _
      simp only [splitNNAux]
      rw [if_neg (by tauto)]
      rw [if_pos (by simp)]
      simp
    | cons c2 t' =>
      show splitNNAux (c :: c2 :: (t' ++ nn ++ rest)) acc = _
      simp only [splitNNAux]
      rw [if_neg (NoNN_head hno)]
      have := ih rest (c :: acc) (NoNN_cons hno)
        (by rw [← List.getLast?_cons_cons]; exact hlast)
      simp only [List.cons_append] at this
      rw [this]
      simp

lemma splitNN_three (p1 p2 p3 : List Char) (h1 : NoNN p1) (h2 : NoNN p2) (h3 : NoNN p3)
    (hl1 : p1.getLast? ≠ some (Char.ofNat 10)) (hl2 : p2.getLast? ≠ some (Char.ofNat 10)) :
    splitNN (p1 ++ nn ++ (p2 ++ nn ++ p3)) = [p1, p2, p3] := by
  unfold splitNN
  rw [splitNNAux_append p1 (p2 ++ nn ++ p3) [] h1 hl1]
  rw [splitNNAux_append p2 p3 [] h2 hl2]
  rw [splitNNAux_no_sep p3 [] h3]
  simp

lemma findFrom_zero_of_isPrefixOf {text sub : List Char} (h : sub.isPrefixOf text = true) :
    findFrom text sub 0 = some 0 := by
  unfold findFrom
  rw [List.range_succ_eq_map, List.find?_cons]
  simp [h]

lemma pyFind_zero_of_isPrefixOf {text sub : List Char} (h : sub.isPrefixOf text = true) :
    pyFind text sub 0 = 0 := by
  unfold pyFind
  rw [show ((0 : Int).toNat) = 0 from rfl, findFrom_zero_of_isPrefixOf h]
  rfl

lemma takeLast_length (k : Nat) (l : List Char) : (takeLast k l).length = min k l.length := by
  simp only [takeLast, List.length_drop]
  omega

lemma stepPara_fresh (size ov : Nat) (text : List Char) (cs : List RawChunk) (s pos : Int)
    {p : List Char} (hp : strip p = p) (hne : p ≠ []) :
    stepPara size ov text ⟨cs, [], s, pos⟩ p = ⟨cs, p, pyFind text p pos, pos⟩ := by
  simp [stepPara, hp, hne]

lemma stepPara_add (size ov : Nat) (text : List Char) (cs : List RawChunk)
    {cur : List Char} (s pos : Int) {p : List Char} (hp : strip p = p) (hne : p ≠ [])
    (hcur : cur ≠ []) (hlen : cur.length + (2 + p.length) ≤ size) :
    stepPara size ov text ⟨cs, cur, s, pos⟩ p = ⟨cs, cur ++ nn ++ p, s, pos⟩ := by
  simp only [stepPara, hp]
  rw [if_neg hne]
  have hc : ((cur ++ (if cur = [] then [] else nn) ++ p).length ≤ size ∨ cur = []) := by
    left
    rw [if_neg hcur]
    simp only [List.length_append, nn, List.length_cons, List.length_nil]
    omega
  rw [if_pos hc, if_neg hcur]

lemma stepPara_close (size ov : Nat) (text : List Char) (cs : List RawChunk)
    {cur : List Char} (s pos : Int) {p : List Char} (hp : strip p = p) (hne : p ≠ [])
    (hcur : cur ≠ []) (hlen : ¬ (cur.length + (2 + p.length) ≤ size)) (hov : 0 < ov) :
    stepPara size ov text ⟨cs, cur, s, pos⟩ p =
      ⟨cs ++ [⟨cs.length, cur, s, s + (cur.length : Int)⟩],
       takeLast ov cur ++ nn ++ p,
       max 0 (s + (cur.length : Int) - ((takeLast ov cur).length : Int)),
       max 0 (s + (cur.length : Int) - ((takeLast ov cur).length : Int))⟩ := by
  simp only [stepPara, hp]
  rw [if_neg hne]
  have hc : ¬ ((cur ++ (if cur = [] then [] else nn) ++ p).length ≤ size ∨ cur = []) := by
    rw [if_neg hcur]
    push_neg
    refine ⟨?_, hcur⟩
    simp only [List.length_append, nn, List.length_cons, List.length_nil]
    omega
  rw [if_neg hc, if_pos hov]

/-- C9 (amended): for a document of exactly three nonempty, stripped
paragraphs (none containing the `"\n\n"` separator), each paragraph at most
`chunk_size` characters, total document length exceeding `chunk_size`, and
`0 < chunk_overlap < |p1|`: the chunker produces at least 2 chunks with
strictly increasing `start_char`, and every chunk's text is at most
`chunk_size + chunk_overlap + 2` characters — the `+ 2` being the `"\n\n"`
with which the overlap seed is joined to the next paragraph (the claimed
bound `chunk_size + chunk_overlap` fails, see
`chunker_bound_counterexample`). -/
theorem chunk_three_paragraphs (size ov : Nat) (p1 p2 p3 : List Char)
    (hs1 : strip p1 = p1) (hs2 : strip p2 = p2) (hs3 : strip p3 = p3)
    (hn1 : p1 ≠ []) (hn2 : p2 ≠ []) (hn3 : p3 ≠ [])
    (hno1 : NoNN p1) (hno2 : NoNN p2) (hno3 : NoNN p3)
    (hb1 : p1.length ≤ size) (hb2 : p2.length ≤ size) (hb3 : p3.length ≤ size)
    (htot : size < p1.length + p2.length + p3.length + 4)
    (hov0 : 0 < ov) (hovl : ov < p1.length) :
    2 ≤ (chunk size ov (p1 ++ nn ++ (p2 ++ nn ++ p3))).length ∧
    (∀ c ∈ chunk size ov (p1 ++ nn ++ (p2 ++ nn ++ p3)),
      c.text.length ≤ size + ov + 2) ∧
    (chunk size ov (p1 ++ nn ++ (p2 ++ nn ++ p3))).Pairwise
      (fun a b => a.start_char < b.start_char) := by
  have hnl : (Char.ofNat 10).isWhitespace = true := by decide
  have hl1 : p1.getLast? ≠ some (Char.ofNat 10) := by
    intro hEq
    rw [strip_getLast_not_ws hs1 hEq] at hnl
    cases hnl
  have hl2 : p2.getLast? ≠ some (Char.ofNat 10) := by
    intro hEq
    rw [strip_getLast_not_ws hs2 hEq] at hnl
    cases hnl
  have hguard : ¬ (p1 ++ nn ++ (p2 ++ nn ++ p3) = [] ∨
      strip (p1 ++ nn ++ (p2 ++ nn ++ p3)) = []) := by
    rcases p1 with _ | ⟨c1, t1⟩
    · exact absurd rfl hn1
    · push_neg
      refine ⟨by simp, ?_⟩
      exact strip_ne_nil_of_head (strip_head_not_ws hs1) _
  unfold chunk
  rw [if_neg hguard]
  rw [splitNN_three p1 p2 p3 hno1 hno2 hno3 hl1 hl2]
  simp only [List.foldl_cons, List.foldl_nil]
  rw [stepPara_fresh size ov _ [] 0 0 hs1 hn1]
  have hpf : pyFind (p1 ++ nn ++ (p2 ++ nn ++ p3)) p1 0 = 0 := by
    apply pyFind_zero_of_isPrefixOf
    rw [List.isPrefixOf_iff_prefix, List.append_assoc]
    exact List.prefix_append p1 _
  rw [hpf]
  by_cases hA : p1.length + (2 + p2.length) ≤ size
  · -- p1 and p2 fit in one buffer; closing happens at p3
    rw [stepPara_add size ov _ [] 0 0 hs2 hn2 hn1 hA]
    have hcur2 : p1 ++ nn ++ p2 ≠ [] := by simp [hn1]
    have hclose : ¬ ((p1 ++ nn ++ p2).length + (2 + p3.length) ≤ size) := by
      simp only [List.length_append, nn, List.length_cons, List.length_nil]
      omega
    rw [stepPara_close size ov _ [] 0 0 hs3 hn3 hcur2 hclose hov0]
    unfold closeFinal
    rw [if_neg (by simp [nn] : ¬ (takeLast ov (p1 ++ nn ++ p2) ++ nn ++ p3 = []))]
    refine ⟨by simp, ?_, ?_⟩
    · intro c hc
      simp only [List.nil_append, List.singleton_append, List.mem_cons,
        List.not_mem_nil, or_false] at hc
      rcases hc with rfl | rfl <;>
      · simp only [takeLast_length, List.length_append, nn, List.length_cons,
          List.length_nil]
        omega
    · simp only [List.nil_append, List.singleton_append, List.pairwise_cons,
        List.mem_cons, List.not_mem_nil, or_false, forall_eq, List.Pairwise.nil,
        and_true, List.mem_singleton]
      simp only [takeLast_length, List.length_append, nn, List.length_cons,
        List.length_nil]
      constructor
      · omega
      · simp
  · -- p2 does not fit: close at p2
    rw [stepPara_close size ov _ [] 0 0 hs2 hn2 hn1 hA hov0]
    have hcur2 : takeLast ov p1 ++ nn ++ p2 ≠ [] := by simp [nn]
    by_cases hA2 : (takeLast ov p1 ++ nn ++ p2).length + (2 + p3.length) ≤ size
    · rw [stepPara_add size ov _ _ _ _ hs3 hn3 hcur2 hA2]
      unfold closeFinal
      rw [if_neg (by simp [nn] : ¬ (takeLast ov p1 ++ nn ++ p2 ++ nn ++ p3 = []))]
      simp only [takeLast_length, List.length_append, nn, List.length_cons,
        List.length_nil] at hA2
      refine ⟨by simp, ?_, ?_⟩
      · intro c hc
        simp only [List.nil_append, List.singleton_append, List.mem_cons,
          List.not_mem_nil, or_false] at hc
        rcases hc with rfl | rfl <;>
        · simp only [takeLast_length, List.length_append, nn, List.length_cons,
            List.length_nil]
          omega
      · simp only [List.nil_append, List.singleton_append, List.pairwise_cons,
          List.mem_cons, List.not_mem_nil, or_false, forall_eq, List.Pairwise.nil,
          and_true, List.mem_singleton]
        simp only [takeLast_length, List.length_append, nn, List.length_cons,
          List.length_nil]
        constructor
        · omega
        · simp
    · rw [stepPara_close size ov _ _ _ _ hs3 hn3 hcur2 hA2 hov0]
      unfold closeFinal
      rw [if_neg (by simp [nn] :
        ¬ (takeLast ov (takeLast ov p1 ++ nn ++ p2) ++ nn ++ p3 = []))]
      simp only [takeLast_length, List.length_append, nn, List.length_cons,
        List.length_nil] at hA2
      refine ⟨by simp, ?_, ?_⟩
      · intro c hc
        simp only [List.nil_append, List.singleton_append, List.cons_append,
          List.mem_cons, List.not_mem_nil, or_false] at hc
        rcases hc with rfl | rfl | rfl <;>
        · simp only [takeLast_length, List.length_append, nn, List.length_cons,
            List.length_nil]
          omega
      · simp only [List.nil_append, List.singleton_append, List.cons_append,
          List.pairwise_cons, List.mem_cons, List.not_mem_nil, or_false, forall_eq,
          forall_eq_or_imp, List.Pairwise.nil, and_true, List.mem_singleton]
        simp only [takeLast_length, List.length_append, nn, List.length_cons,
          List.length_nil]
        have hm1 : ov ⊓ p1.length = ov := by omega
        have hm2 : ov ⊓ (ov + (0 + 1 + 1) + p2.length) = ov := by omega
        simp only [hm1, hm2, false_implies, implies_true, and_true]
        refine ⟨⟨?_, ?_⟩, ?_⟩ <;> omega

/-- Witness for `chunk_three_paragraphs`: paragraphs `"aaaa"`, `"bbbb"`,
`"cc"` with `chunk_size = 10`, `chunk_overlap = 2` (document length 14). -/
theorem chunk_three_paragraphs_witness :
    (strip "aaaa".toList = "aaaa".toList ∧ strip "bbbb".toList = "bbbb".toList ∧
      strip "cc".toList = "cc".toList ∧ "aaaa".toList ≠ [] ∧ "bbbb".toList ≠ [] ∧
      "cc".toList ≠ [] ∧ NoNN "aaaa".toList ∧ NoNN "bbbb".toList ∧ NoNN "cc".toList ∧
      "aaaa".toList.length ≤ 10 ∧ "bbbb".toList.length ≤ 10 ∧ "cc".toList.length ≤ 10 ∧
      10 < "aaaa".toList.length + "bbbb".toList.length + "cc".toList.length + 4 ∧
      0 < 2 ∧ 2 < "aaaa".toList.length) ∧
    (2 ≤ (chunk 10 2 ("aaaa".toList ++ nn ++ ("bbbb".toList ++ nn ++ "cc".toList))).length ∧
      (∀ c ∈ chunk 10 2 ("aaaa".toList ++ nn ++ ("bbbb".toList ++ nn ++ "cc".toList)),
        c.text.length ≤ 10 + 2 + 2) ∧
      (chunk 10 2 ("aaaa".toList ++ nn ++ ("bbbb".toList ++ nn ++ "cc".toList))).Pairwise
        (fun a b => a.start_char < b.start_char)) :=
  ⟨by decide,
    chunk_three_paragraphs 10 2 _ _ _ (by decide) (by decide) (by decide) (by decide)
      (by decide) (by decide) (by decide) (by decide) (by decide) (by decide) (by decide)
      (by decide) (by decide) (by decide) (by decide)⟩

end RagPipeline
